import Mathlib

/-!
Verification development for the TauZip archive engine
(`src-tauri/src/compression.rs`).

The Rust code is shallowly embedded:
* Rust `String`/`&str` values become Lean `String`; the byte-level slice
  operations used by the code only ever remove ASCII suffixes, where
  byte-level and character-level slicing agree, so character-level
  operations are used.
* `f64` progress percentages are modelled as exact rationals `ℚ`; every
  percentage computed by the code is `100 * a / b` or a constant, and
  `f64` rounding is monotone, so ordering facts transfer.
* Filesystem paths become lists of components (`Comp`), mirroring
  `std::path::Component`; the filesystem itself becomes an explicit
  tree value (`FsNode`) passed to the embedded drivers.
* Fallible operations return `Option`/`Except`; a Rust panic is a
  distinguished `Outcome.panicked` value.
-/

namespace TauZip

/-- The `CompressionType` enum from `compression.rs`. -/
inductive CompressionType where
  | Zip
  | TarGz
  | TarBr
  | Gz
  | Br
  | Gzip
  | Bzip2
deriving DecidableEq, Repr

/-- `CompressionType::supports_multiple_files`. -/
def supports_multiple_files : CompressionType → Bool
  | .Zip | .TarGz | .TarBr => true
  | .Gz | .Br | .Gzip | .Bzip2 => false

/-- Model of Rust `str::to_lowercase`, restricted to the ASCII range
(`Char.toLower` lowers exactly the basic latin letters, which covers every
string the code compares against). -/
def to_lowercase (s : String) : String :=
  String.mk (s.toList.map Char.toLower)

/-- `CompressionType::from_extension`: lowercases its argument and matches
it against the recognized extension literals. -/
def from_extension (ext : String) : Option CompressionType :=
  match to_lowercase ext with
  | ".zip" => some .Zip
  | ".tar.gz" => some .TarGz
  | ".tgz" => some .TarGz
  | ".tar.br" => some .TarBr
  | ".gz" => some .Gz
  | ".br" => some .Br
  | ".gzip" => some .Gzip
  | ".bz2" => some .Bzip2
  | ".bzip2" => some .Bzip2
  | _ => none

/-- Model of Rust `str::ends_with`.  For valid UTF-8 the byte-level suffix
test used by Rust coincides with the character-level one. -/
def ends_with (s pat : String) : Bool :=
  pat.toList.isSuffixOf s.toList

/-- `&s[..s.len() - n]` for an ASCII suffix of byte length `n`:
drop the last `n` characters. -/
def drop_end (s : String) (n : Nat) : String :=
  String.mk (s.toList.take (s.toList.length - n))

/-- Split a character list at its last `'.'`, returning the parts before
and after it, or `none` when no `'.'` occurs.  Helper for the embeddings
of `Path::extension` and `Path::file_stem`. -/
def split_at_last_dot : List Char → Option (List Char × List Char)
  | [] => none
  | c :: rest =>
    match split_at_last_dot rest with
    | some (pre, suf) => some (c :: pre, suf)
    | none => if c = '.' then some ([], rest) else none

/-- Rust `Path::extension`, applied to a file name: the portion after the
last `'.'`, unless there is no `'.'` or the only `'.'` is the leading
character (so `".gitignore"` has no extension). -/
def rust_extension (file_name : String) : Option String :=
  match split_at_last_dot file_name.toList with
  | some (pre, suf) => if pre = [] then none else some (String.mk suf)
  | none => none

/-- Rust `Path::file_stem`, applied to a file name: the portion before the
last `'.'`, or the whole name when `rust_extension` is `none`. -/
def rust_file_stem (file_name : String) : String :=
  match split_at_last_dot file_name.toList with
  | some (pre, _) => if pre = [] then file_name else String.mk pre
  | none => file_name

/-- `fallback_filename_from_compressed` from `compression.rs`, as a
function of the archive's file name (the Rust code first extracts
`file_path.file_name()`; `file_stem` is likewise derived from the name). -/
def fallback_filename_from_compressed (filename : String) : String :=
  let p : String × Bool :=
    if ends_with filename ".gz" then (drop_end filename 3, true)
    else if ends_with filename ".gzip" then (drop_end filename 5, true)
    else if ends_with filename ".br" then (drop_end filename 3, true)
    else if ends_with filename ".bz2" then (drop_end filename 4, true)
    else if ends_with filename ".bzip2" then (drop_end filename 6, true)
    else (filename, false)
  let base_name := p.1
  let stripped := p.2
  if stripped = true ∧ base_name ≠ "" then
    if '.' ∈ base_name.toList then base_name
    else base_name ++ ".txt"
  else
    rust_file_stem filename

/-- `is_compressed_file` from `compression.rs`, as a function of the
path's final component (`file_name`, with `unwrap_or("")` for paths
without one); `path.extension()` is computed from that same component. -/
def is_compressed_file (file_name : String) : Bool :=
  if ends_with file_name ".tar.gz" || ends_with file_name ".tgz"
      || ends_with file_name ".tar.br" then
    true
  else
    let extension := (rust_extension file_name).getD ""
    extension == "zip" || extension == "gz" || extension == "br"
      || extension == "gzip" || extension == "bzip2" || extension == "bz2"
      || extension == "rar"

/-- The archive kinds distinguished by `decompress_files_with_progress`. -/
inductive DecompressKind where
  | tarGz
  | tarBr
  | zip
  | gz
  | br
  | bzip2
deriving DecidableEq, Repr

/-- The suffix dispatch of `decompress_files_with_progress` (built without
the optional `rar-support` feature): compound suffixes are tested with
case-sensitive `ends_with`, the rest by matching `extension()` literally;
`none` is the `Unsupported file format` error. -/
def decompress_dispatch (file_name : String) : Option DecompressKind :=
  if ends_with file_name ".tar.gz" || ends_with file_name ".tgz" then
    some .tarGz
  else if ends_with file_name ".tar.br" then
    some .tarBr
  else
    match (rust_extension file_name).getD "" with
    | "zip" => some .zip
    | "gz" => some .gz
    | "gzip" => some .gz
    | "br" => some .br
    | "bz2" => some .bzip2
    | "bzip2" => some .bzip2
    | _ => none

/-- Claim-side filename recovery (C2): strip a recognized compression
suffix case-sensitively; if one was stripped and a base name remains,
return it verbatim when it still contains a `'.'` and append `".txt"`
otherwise; if no suffix matched or nothing remains, fall back to the file
stem. -/
def recover_name_spec (filename : String) : String :=
  let stripped? : Option String :=
    if ends_with filename ".gz" then some (drop_end filename 3)
    else if ends_with filename ".gzip" then some (drop_end filename 5)
    else if ends_with filename ".br" then some (drop_end filename 3)
    else if ends_with filename ".bz2" then some (drop_end filename 4)
    else if ends_with filename ".bzip2" then some (drop_end filename 6)
    else none
  match stripped? with
  | some base =>
    if base = "" then rust_file_stem filename
    else if '.' ∈ base.toList then base
    else base ++ ".txt"
  | none => rust_file_stem filename

/-- The filename suffixes the claims recognize for `isSupportedArchive`
(C8): `.zip`, `.tar.gz`/`.tgz`, `.tar.br`, `.gz`/`.gzip`, `.br`,
`.bz2`/`.bzip2`. -/
def claim_recognized_suffixes : List String :=
  [".zip", ".tar.gz", ".tgz", ".tar.br", ".gz", ".gzip", ".br", ".bz2", ".bzip2"]

/-- Path components, mirroring `std::path::Component` (Windows drive
prefixes are out of scope). -/
inductive Comp where
  | root
  | curdir
  | parentdir
  | normal (s : String)
deriving DecidableEq, Repr

/-- A path, as its component list. -/
abbrev RPath := List Comp

/-- Rust `Path::parent`: the path with its last component removed; `none`
for the empty path and for the bare root. -/
def parent_path : RPath → Option RPath
  | [] => none
  | [Comp.root] => none
  | p => some p.dropLast

/-- The shared leading components of two component lists (the loop body of
`find_common_path`: componentwise equality, stopping at the first
divergence). -/
def common_components : List Comp → List Comp → List Comp
  | c1 :: t1, c2 :: t2 => if c1 = c2 then c1 :: common_components t1 t2 else []
  | _, _ => []

/-- `find_common_path` from `compression.rs`: `none` when no components
are shared. -/
def find_common_path (path1 path2 : RPath) : Option RPath :=
  let common := common_components path1 path2
  if common = [] then none else some common

/-- `PathBuf::from(".")`, the current-working-directory fallback. -/
def cwd_path : RPath := [Comp.curdir]

/-- The loop of `find_common_base_dir` over the inputs after the first:
an input without a parent is skipped (the `if let Some` in the source); a
failed `find_common_path` returns `.` immediately. -/
def find_common_base_loop : List RPath → RPath → Option RPath
  | [], common_base => some common_base
  | file :: rest, common_base =>
    match parent_path file with
    | none => find_common_base_loop rest common_base
    | some file_parent =>
      match find_common_path common_base file_parent with
      | some new_common => find_common_base_loop rest new_common
      | none => some cwd_path

/-- `find_common_base_dir` from `compression.rs`. -/
def find_common_base_dir : List RPath → Option RPath
  | [] => none
  | file :: rest =>
    match parent_path file with
    | none => none
    | some base => find_common_base_loop rest base

/-- Claim-side algorithm (C5): fold the componentwise longest shared
lead over all inputs' parent directories, starting from the first input's
parent, short-circuiting to the current working directory as soon as no
components are shared. -/
def common_base_spec_loop : RPath → List RPath → RPath
  | cur, [] => cur
  | cur, p :: rest =>
    let shared := common_components cur p
    if shared = [] then cwd_path else common_base_spec_loop shared rest

/-- Claim-side common base (C5), as a function of the parent directories. -/
def common_base_spec (parents : List RPath) : Option RPath :=
  match parents with
  | [] => none
  | p :: rest => some (common_base_spec_loop p rest)

/-- `Path::is_absolute` (unix): the first component is the root. -/
def is_absolute (p : RPath) : Bool :=
  match p with
  | Comp.root :: _ => true
  | _ => false

/-- Rust `Path::join`: an absolute argument replaces the base entirely,
otherwise the argument's components are appended. -/
def path_join (base arg : RPath) : RPath :=
  if is_absolute arg then arg else base ++ arg

/-- Parse one forward-slash-separated segment of a stored entry name. -/
def parse_comp (s : String) : Option Comp :=
  if s = "" then none
  else if s = "." then some Comp.curdir
  else if s = ".." then some Comp.parentdir
  else some (Comp.normal s)

/-- Split a character list at `'/'` separators (the semantics of
`splitOn "/"`, structurally recursive). -/
def split_slash : List Char → List (List Char)
  | [] => [[]]
  | c :: rest =>
    let r := split_slash rest
    if c = '/' then [] :: r
    else
      match r with
      | [] => [[c]]
      | seg :: segs => (c :: seg) :: segs

/-- Parse a zip entry name (forward-slash separated, as stored in the
archive) into path components. -/
def parse_entry_name (s : String) : RPath :=
  let lead : RPath := if s.toList.head? = some '/' then [Comp.root] else []
  lead ++ ((split_slash s.toList).map String.mk).filterMap parse_comp

/-- The output path computed for one zip entry by
`decompress_zip_with_progress` (`output_dir.join(file.name())`): the
stored entry name is joined under the output directory with no
sanitization. -/
def decompress_zip_entry_outpath (output_dir : RPath) (entry_name : String) : RPath :=
  path_join output_dir (parse_entry_name entry_name)

/-- One step of lexical path normalization: drop `.`, resolve `..`
against a preceding normal component (claim-side device for stating
directory escape). -/
def normalize_step (acc : RPath) (c : Comp) : RPath :=
  match c with
  | Comp.curdir => acc
  | Comp.parentdir =>
    match acc.getLast? with
    | some (Comp.normal _) => acc.dropLast
    | some Comp.root => acc
    | _ => acc ++ [Comp.parentdir]
  | c => acc ++ [c]

/-- Lexical normalization of a path. -/
def normalize_path (p : RPath) : RPath :=
  p.foldl normalize_step []

/-- Whether the first component list leads the second. -/
def is_lead_of : RPath → RPath → Bool
  | [], _ => true
  | _ :: _, [] => false
  | a :: xs, b :: ys => a = b && is_lead_of xs ys

/-- Claim-side containment (C4): after lexical normalization, the path
still lies under the directory. -/
def stays_within (dir p : RPath) : Bool :=
  is_lead_of (normalize_path dir) (normalize_path p)

/-- Rust `Path::strip_prefix` (componentwise; the base's components must
lead the path's). -/
def strip_path_base : RPath → RPath → Option RPath
  | p, [] => some p
  | [], _ :: _ => none
  | c :: p, b :: bs => if c = b then strip_path_base p bs else none

/-- Rust `Path::file_name` with `unwrap_or_default`: the final normal
component, or the empty string (root/`..`/`.` endings have no file name). -/
def file_name_of (p : RPath) : String :=
  match p.getLast? with
  | some (Comp.normal s) => s
  | _ => ""

/-- Textual form of one component. -/
def comp_text : Comp → String
  | Comp.root => "/"
  | Comp.curdir => "."
  | Comp.parentdir => ".."
  | Comp.normal s => s

/-- Forward-slash rendering of a relative path (the zip driver stores
`relative_path.to_string_lossy().replace('\\', "/")`; on the relative
paths produced by `strip_prefix` this joins the components with `/`). -/
def slash_text : RPath → String
  | [] => ""
  | [c] => comp_text c
  | c :: rest => comp_text c ++ "/" ++ slash_text rest

/-- Zip entry naming from `add_to_zip_sync_with_progress`: the path
relative to the base directory when `strip_prefix` succeeds, else just the
file name. -/
def zip_entry_name (file_path base_dir : RPath) : String :=
  match strip_path_base file_path base_dir with
  | some relative_path => slash_text relative_path
  | none => file_name_of file_path

/-- Tar entry naming from `add_to_tar_with_progress`: a file is appended
as `append_path_with_name(file_path, file_name)` and a directory as
`append_dir_all(file_name, path)` — in both cases only the final file
name, with no base-relative path. -/
def tar_entry_name (file_path : RPath) : String :=
  file_name_of file_path

/-- Claim-side entry naming (C7): the input's path relative to the common
base directory with forward-slash separators, falling back to the file
name only when relativization fails. -/
def entry_name_spec (file_path base_dir : RPath) : String :=
  match strip_path_base file_path base_dir with
  | some relative_path => slash_text relative_path
  | none => file_name_of file_path

mutual
/-- A filesystem node: a regular file with its byte size, or a directory
with its children in `read_dir` order. -/
inductive FsNode where
  | file (size : Nat)
  | dir (entries : FsEntries)
deriving DecidableEq, Repr

/-- Directory entries: `(file_name, node)` pairs. -/
inductive FsEntries where
  | nil
  | cons (name : String) (node : FsNode) (rest : FsEntries)
deriving DecidableEq, Repr
end

mutual
/-- `calculate_path_size`: a file's byte length, or the recursive sum over
a directory's entries. -/
def node_size : FsNode → Nat
  | .file n => n
  | .dir es => entries_size es

def entries_size : FsEntries → Nat
  | .nil => 0
  | .cons _ nd rest => node_size nd + entries_size rest
end

/-- `calculate_total_size` over the input list (each input given with its
file name). -/
def total_size (files : List (String × FsNode)) : Nat :=
  (files.map fun f => node_size f.2).sum

/-- One progress callback invocation: `(percent, current file name)`. -/
abbrev Event := ℚ × String

mutual
/-- The events emitted by `add_to_zip_sync_with_progress` for one node,
together with the updated processed-byte counter.  A file emits one event
after its bytes are copied — `processed/total*100` when the total is
positive, and the literal `100.0` otherwise; a directory recurses over its
entries. -/
def add_zip_events : FsNode → String → Nat → Nat → List Event × Nat
  | .file n, name, processed, total =>
    let p := processed + n
    let pct : ℚ := if 0 < total then (p : ℚ) / (total : ℚ) * 100 else 100
    ([(pct, name)], p)
  | .dir es, _, processed, total => add_zip_entries_events es processed total

def add_zip_entries_events : FsEntries → Nat → Nat → List Event × Nat
  | .nil, processed, _ => ([], processed)
  | .cons name nd rest, processed, total =>
    let r1 := add_zip_events nd name processed total
    let r2 := add_zip_entries_events rest r1.2 total
    (r1.1 ++ r2.1, r2.2)
end

/-- The per-input loop of `compress_zip_with_progress`: a before-entry
event (bytes-based when the total is positive, index-based otherwise),
then the entry's own events. -/
def zip_loop : List (String × FsNode) → Nat → Nat → Nat → Nat → List Event
  | [], _, _, _, _ => []
  | (name, nd) :: rest, index, processed, total, len =>
    let before : ℚ :=
      if 0 < total then (processed : ℚ) / (total : ℚ) * 100
      else (index : ℚ) / (len : ℚ) * 100
    let r := add_zip_events nd name processed total
    (before, name) :: r.1 ++ zip_loop rest (index + 1) r.2 total len

/-- All progress events of one `compress_zip_with_progress` call: the
loop's events followed by the unconditional final `(100.0, "Complete")`. -/
def zip_compress_events (files : List (String × FsNode)) : List Event :=
  zip_loop files 0 0 (total_size files) files.length ++ [(100, "Complete")]

/-- The per-input loop of `compress_tar_gz_with_progress` and
`compress_tar_br_with_progress`: only the before-entry event per input
(`add_to_tar_with_progress` reports no progress), with the processed
counter advanced by the input's size. -/
def tar_loop : List (String × FsNode) → Nat → Nat → Nat → Nat → List Event
  | [], _, _, _, _ => []
  | (name, nd) :: rest, index, processed, total, len =>
    let before : ℚ :=
      if 0 < total then (processed : ℚ) / (total : ℚ) * 100
      else (index : ℚ) / (len : ℚ) * 100
    (before, name) :: tar_loop rest (index + 1) (processed + node_size nd) total len

/-- All progress events of one tar compress call: the loop's events
followed by the unconditional final `(100.0, "Complete")`. -/
def tar_compress_events (files : List (String × FsNode)) : List Event :=
  tar_loop files 0 0 (total_size files) files.length ++ [(100, "Complete")]

/-- The typed errors of the embedded facade. -/
inductive CompressError where
  | unsupportedMultiInput
deriving DecidableEq, Repr

/-- I/O actions visible in the facade model. -/
inductive IoAction where
  | openInput (name : String)
  | createOutput
deriving DecidableEq, Repr

/-- The result of the embedded facade: a normal return with its I/O
trace, a typed error with the I/O performed before failing, or a Rust
panic with the I/O performed before the panic. -/
inductive Outcome where
  | ok (actions : List IoAction)
  | error (e : CompressError) (actions : List IoAction)
  | panicked (actions : List IoAction)
deriving DecidableEq, Repr

/-- `compress_files_with_progress`: the multi-input guard runs first and
returns the `UnsupportedMultiInput` error before anything else; otherwise
the call dispatches on the kind.  The drivers' encoder byte streams are
opaque, so a driver's trace records only the files it opens/creates, in
order: the zip/tar drivers create the output file first; the
single-stream arms index `files[0]` — a panic on an empty input list —
and then open the input and create the output. -/
def compress_files_with_progress (files : List (String × FsNode))
    (compression_type : CompressionType) : Outcome :=
  if supports_multiple_files compression_type = false ∧ 1 < files.length then
    .error .unsupportedMultiInput []
  else
    match compression_type with
    | .Zip | .TarGz | .TarBr => .ok [.createOutput]
    | .Gz | .Gzip | .Br | .Bzip2 =>
      match files with
      | [] => .panicked []
      | f :: _ => .ok [.openInput f.1, .createOutput]

/-- The counter state of `ProgressWriter` (`total_size`, `bytes_written`). -/
structure ProgressWriter where
  total_size : Nat
  bytes_written : Nat
deriving DecidableEq, Repr

/-- One `ProgressWriter::write` call.  The inner writer is represented by
its state `s` and its write function; `buf` is handed to it unchanged.
An inner error is propagated unchanged; otherwise the bytes actually
written are added to the counter and, only when the total is positive,
the callback is invoked with `min (bytes_written/total*100) 100`.
Returns the byte count, the updated states and the callback invocation
(if any). -/
def progress_writer_write {σ : Type} (inner_write : σ → List Nat → Except String (Nat × σ))
    (s : σ) (pw : ProgressWriter) (buf : List Nat) :
    Except String (Nat × σ × ProgressWriter × Option ℚ) :=
  match inner_write s buf with
  | .error e => .error e
  | .ok (bytes, s') =>
    let pw' : ProgressWriter := ⟨pw.total_size, pw.bytes_written + bytes⟩
    let event : Option ℚ :=
      if 0 < pw.total_size then
        some (min ((pw'.bytes_written : ℚ) / (pw.total_size : ℚ) * 100) 100)
      else none
    .ok (bytes, s', pw', event)

/-- The counter state of `ProgressReader` (`total_size`, `bytes_read`). -/
structure ProgressReader where
  total_size : Nat
  bytes_read : Nat
deriving DecidableEq, Repr

/-- One `ProgressReader::read` call, with the same accounting as the
writer: the read request is forwarded to the inner reader unchanged, an
inner error is propagated unchanged, and otherwise the bytes actually
read are added to the counter and the callback is invoked with
`min (bytes_read/total*100) 100` — only when the total is positive. -/
def progress_reader_read {σ : Type} (inner_read : σ → Nat → Except String (Nat × σ))
    (s : σ) (pr : ProgressReader) (buf_len : Nat) :
    Except String (Nat × σ × ProgressReader × Option ℚ) :=
  match inner_read s buf_len with
  | .error e => .error e
  | .ok (bytes, s') =>
    let pr' : ProgressReader := ⟨pr.total_size, pr.bytes_read + bytes⟩
    let event : Option ℚ :=
      if 0 < pr.total_size then
        some (min ((pr'.bytes_read : ℚ) / (pr.total_size : ℚ) * 100) 100)
      else none
    .ok (bytes, s', pr', event)

/-- Shorthand for the percentage `100 * p / t` as the code computes it. -/
def pct (p t : Nat) : ℚ :=
  (p : ℚ) / (t : ℚ) * 100

/-- Every element of `l` lies in `[lo, hi]` and `l` is non-decreasing. -/
def bounded_chain (lo hi : ℚ) (l : List ℚ) : Prop :=
  List.Chain' (· ≤ ·) l ∧ ∀ q ∈ l, lo ≤ q ∧ q ≤ hi

/-- The progress events of one successful `decompress_zip_with_progress`
call on an archive with `total_files` entries: before entry `i` the
entry-count percent `i/total_files*100`, then the unconditional final
`(100.0, archive_name)`. -/
def zip_decompress_events (total_files : Nat) (archive_name : String) : List Event :=
  ((List.range total_files).map fun (i : Nat) =>
    ((i : ℚ) / (total_files : ℚ) * 100, archive_name)) ++ [(100, archive_name)]

/-- The percent values emitted by a run of `ProgressWriter::write` calls
whose inner writer accepts `chunk` bytes in turn, starting from a counter
of `written` bytes: each call adds its chunk to the counter and, when the
total is positive, reports `min (100 * counter / total) 100`. -/
def progress_writer_percents (total : Nat) : Nat → List Nat → List ℚ
  | _, [] => []
  | written, chunk :: rest =>
    (if 0 < total then [min (pct (written + chunk) total) 100] else [])
      ++ progress_writer_percents total (written + chunk) rest

/-- The percent values emitted by a run of `ProgressReader::read` calls
whose inner reader yields `chunk` bytes in turn — the same accounting as
the writer wrapper. -/
def progress_reader_percents (total : Nat) : Nat → List Nat → List ℚ
  | _, [] => []
  | already_read, chunk :: rest =>
    (if 0 < total then [min (pct (already_read + chunk) total) 100] else [])
      ++ progress_reader_percents total (already_read + chunk) rest

/-! ## Helper lemmas -/

theorem char_toNat_ofNat_valid {n : Nat} (h : n.isValidChar) :
    (Char.ofNat n).toNat = n := by
  unfold Char.ofNat
  rw [dif_pos h]
  rfl

theorem char_toLower_toLower (c : Char) :
    Char.toLower (Char.toLower c) = Char.toLower c := by
  unfold Char.toLower
  by_cases h : c.toNat ≥ 65 ∧ c.toNat ≤ 90
  · rw [if_pos h]
    have hv : (c.toNat + 32).isValidChar := Or.inl (by omega)
    rw [char_toNat_ofNat_valid hv]
    rw [if_neg (by omega)]
  · simp only [if_neg h]

theorem to_lowercase_idem (s : String) :
    to_lowercase (to_lowercase s) = to_lowercase s := by
  unfold to_lowercase
  simp [List.map_map, Function.comp_def, char_toLower_toLower]

theorem pct_mono {a b t : Nat} (h : a ≤ b) (ht : 0 < t) : pct a t ≤ pct b t := by
  unfold pct
  have ht' : (0 : ℚ) < (t : ℚ) := by exact_mod_cast ht
  have hab : (a : ℚ) ≤ (b : ℚ) := by exact_mod_cast h
  gcongr

theorem pct_self {t : Nat} (ht : 0 < t) : pct t t = 100 := by
  unfold pct
  have ht' : ((t : ℚ)) ≠ 0 := by
    exact_mod_cast Nat.pos_iff_ne_zero.mp ht
  rw [div_self ht']
  ring

theorem pct_le_100 {p t : Nat} (h : p ≤ t) (ht : 0 < t) : pct p t ≤ 100 := by
  have := pct_mono h ht
  rwa [pct_self ht] at this

theorem bounded_chain_nil {lo hi : ℚ} : bounded_chain lo hi [] :=
  ⟨List.chain'_nil, by simp⟩

theorem bounded_chain_singleton {lo hi q : ℚ} (h1 : lo ≤ q) (h2 : q ≤ hi) :
    bounded_chain lo hi [q] :=
  ⟨List.chain'_singleton q, by simpa using ⟨h1, h2⟩⟩

theorem bounded_chain_append {lo m hi : ℚ} {l1 l2 : List ℚ}
    (h1 : bounded_chain lo m l1) (h2 : bounded_chain m hi l2)
    (hlm : lo ≤ m) (hmh : m ≤ hi) :
    bounded_chain lo hi (l1 ++ l2) := by
  constructor
  · rw [List.chain'_append]
    refine ⟨h1.1, h2.1, fun x hx y hy => ?_⟩
    have hx' : x ≤ m := (h1.2 x (List.mem_of_mem_getLast? hx)).2
    have hy' : m ≤ y := (h2.2 y (List.mem_of_mem_head? hy)).1
    exact le_trans hx' hy'
  · intro q hq
    rcases List.mem_append.mp hq with h | h
    · exact ⟨(h1.2 q h).1, le_trans (h1.2 q h).2 hmh⟩
    · exact ⟨le_trans hlm (h2.2 q h).1, (h2.2 q h).2⟩

theorem bounded_chain_cons {lo hi q : ℚ} {l : List ℚ}
    (hq : lo ≤ q) (hqh : q ≤ hi) (h : bounded_chain q hi l) :
    bounded_chain lo hi (q :: l) := by
  simpa using bounded_chain_append (bounded_chain_singleton hq (le_refl q)) h hq hqh

theorem bounded_chain_weaken {lo hi lo' hi' : ℚ} {l : List ℚ}
    (h : bounded_chain lo hi l) (h1 : lo' ≤ lo) (h2 : hi ≤ hi') :
    bounded_chain lo' hi' l :=
  ⟨h.1, fun q hq => ⟨le_trans h1 (h.2 q hq).1, le_trans (h.2 q hq).2 h2⟩⟩

mutual
theorem add_zip_events_bounds (nd : FsNode) (name : String) (p t : Nat) (ht : 0 < t) :
    (add_zip_events nd name p t).2 = p + node_size nd ∧
    bounded_chain (pct p t) (pct (p + node_size nd) t)
      ((add_zip_events nd name p t).1.map Prod.fst) := by
  cases nd with
  | file n =>
    refine ⟨rfl, ?_⟩
    simp only [add_zip_events, if_pos ht, List.map_cons, List.map_nil, node_size]
    exact bounded_chain_singleton (pct_mono (Nat.le_add_right p n) ht) (le_refl _)
  | dir es =>
    have h := add_zip_entries_events_bounds es p t ht
    simpa [add_zip_events, node_size] using h

theorem add_zip_entries_events_bounds (es : FsEntries) (p t : Nat) (ht : 0 < t) :
    (add_zip_entries_events es p t).2 = p + entries_size es ∧
    bounded_chain (pct p t) (pct (p + entries_size es) t)
      ((add_zip_entries_events es p t).1.map Prod.fst) := by
  cases es with
  | nil =>
    refine ⟨by simp [add_zip_entries_events, entries_size], ?_⟩
    simpa [add_zip_entries_events] using bounded_chain_nil
  | cons name nd rest =>
    have h1 := add_zip_events_bounds nd name p t ht
    have h2 := add_zip_entries_events_bounds rest (add_zip_events nd name p t).2 t ht
    rw [h1.1] at h2
    refine ⟨?_, ?_⟩
    · simp only [add_zip_entries_events, h2.1, h1.1, entries_size]
      omega
    · simp only [add_zip_entries_events, List.map_append, entries_size, h1.1]
      have hb := bounded_chain_append h1.2 h2.2
        (pct_mono (Nat.le_add_right p (node_size nd)) ht)
        (pct_mono (by omega) ht)
      have heq : p + node_size nd + entries_size rest
          = p + (node_size nd + entries_size rest) := by omega
      rw [heq] at hb
      exact hb
end

theorem zip_loop_bounds (files : List (String × FsNode)) :
    ∀ (index processed t len : Nat), 0 < t →
    bounded_chain (pct processed t)
      (pct (processed + (files.map fun f => node_size f.2).sum) t)
      ((zip_loop files index processed t len).map Prod.fst) := by
  induction files with
  | nil =>
    intro index processed t len ht
    simpa [zip_loop] using bounded_chain_nil
  | cons f rest ih =>
    intro index processed t len ht
    obtain ⟨name, nd⟩ := f
    have h1 := add_zip_events_bounds nd name processed t ht
    have h2 := ih (index + 1) (add_zip_events nd name processed t).2 t len ht
    rw [h1.1] at h2
    have htail := bounded_chain_append h1.2 h2
      (pct_mono (Nat.le_add_right processed (node_size nd)) ht)
      (pct_mono (Nat.le_add_right _ _) ht)
    have hall := bounded_chain_cons (le_refl (pct processed t))
      (pct_mono (by omega) ht) htail
    simp only [zip_loop, if_pos ht, List.map_cons, List.map_append, List.map, h1.1]
    have heq : processed + node_size nd
          + (List.map (fun f => node_size f.2) rest).sum
        = processed + (node_size nd
          + (List.map (fun f => node_size f.2) rest).sum) := by omega
    rw [heq] at hall
    simpa using hall

theorem tar_loop_bounds (files : List (String × FsNode)) :
    ∀ (index processed t len : Nat), 0 < t →
    bounded_chain (pct processed t)
      (pct (processed + (files.map fun f => node_size f.2).sum) t)
      ((tar_loop files index processed t len).map Prod.fst) := by
  induction files with
  | nil =>
    intro index processed t len ht
    simpa [tar_loop] using bounded_chain_nil
  | cons f rest ih =>
    intro index processed t len ht
    obtain ⟨name, nd⟩ := f
    have h2 := ih (index + 1) (processed + node_size nd) t len ht
    have htail := bounded_chain_weaken h2
      (pct_mono (Nat.le_add_right processed (node_size nd)) ht) (le_refl _)
    have hall := bounded_chain_cons (le_refl (pct processed t))
      (pct_mono (by omega) ht) htail
    simp only [tar_loop, if_pos ht, List.map_cons, List.map]
    have heq : processed + node_size nd
          + (List.map (fun f => node_size f.2) rest).sum
        = processed + (node_size nd
          + (List.map (fun f => node_size f.2) rest).sum) := by omega
    rw [heq] at hall
    simpa using hall

theorem pct_nonneg (p t : Nat) : 0 ≤ pct p t := by
  unfold pct
  positivity

theorem range_pct_bounded (n : Nat) :
    bounded_chain 0 100 ((List.range n).map fun i => pct i n) := by
  constructor
  · rw [List.chain'_map]
    cases n with
    | zero => simp
    | succ m =>
      rw [List.chain'_range_succ]
      intro i _
      exact pct_mono (Nat.le_succ i) (Nat.succ_pos m)
  · intro q hq
    simp only [List.mem_map, List.mem_range] at hq
    obtain ⟨i, hi, rfl⟩ := hq
    cases n with
    | zero => exact absurd hi (Nat.not_lt_zero i)
    | succ m => exact ⟨pct_nonneg _ _, pct_le_100 (le_of_lt hi) (Nat.succ_pos m)⟩

theorem progress_writer_percents_lb (total : Nat) (cs : List Nat) :
    ∀ written, ∀ q ∈ progress_writer_percents total written cs,
      min (pct written total) 100 ≤ q := by
  induction cs with
  | nil =>
    intro w q hq
    simp [progress_writer_percents] at hq
  | cons c rest ih =>
    intro w q hq
    by_cases h : 0 < total
    · simp only [progress_writer_percents, if_pos h, List.singleton_append,
        List.mem_cons] at hq
      rcases hq with rfl | hq
      · exact min_le_min (pct_mono (Nat.le_add_right w c) h) (le_refl _)
      · exact le_trans (min_le_min (pct_mono (Nat.le_add_right w c) h) (le_refl _))
          (ih (w + c) q hq)
    · simp only [progress_writer_percents, if_neg h, List.nil_append] at hq
      have h0 : total = 0 := Nat.le_zero.mp (Nat.not_lt.mp h)
      have hp : pct w total = pct (w + c) total := by
        simp [pct, h0]
      rw [hp]
      exact ih (w + c) q hq

theorem progress_writer_percents_chain (total : Nat) (cs : List Nat) :
    ∀ written, List.Chain' (· ≤ ·) (progress_writer_percents total written cs) := by
  induction cs with
  | nil =>
    intro w
    simp [progress_writer_percents]
  | cons c rest ih =>
    intro w
    by_cases h : 0 < total
    · simp only [progress_writer_percents, if_pos h, List.singleton_append]
      rw [List.chain'_cons']
      exact ⟨fun y hy => progress_writer_percents_lb total rest (w + c) y
        (List.mem_of_mem_head? hy), ih (w + c)⟩
    · simp only [progress_writer_percents, if_neg h, List.nil_append]
      exact ih (w + c)

theorem progress_reader_percents_lb (total : Nat) (cs : List Nat) :
    ∀ already_read, ∀ q ∈ progress_reader_percents total already_read cs,
      min (pct already_read total) 100 ≤ q := by
  induction cs with
  | nil =>
    intro w q hq
    simp [progress_reader_percents] at hq
  | cons c rest ih =>
    intro w q hq
    by_cases h : 0 < total
    · simp only [progress_reader_percents, if_pos h, List.singleton_append,
        List.mem_cons] at hq
      rcases hq with rfl | hq
      · exact min_le_min (pct_mono (Nat.le_add_right w c) h) (le_refl _)
      · exact le_trans (min_le_min (pct_mono (Nat.le_add_right w c) h) (le_refl _))
          (ih (w + c) q hq)
    · simp only [progress_reader_percents, if_neg h, List.nil_append] at hq
      have h0 : total = 0 := Nat.le_zero.mp (Nat.not_lt.mp h)
      have hp : pct w total = pct (w + c) total := by
        simp [pct, h0]
      rw [hp]
      exact ih (w + c) q hq

theorem progress_reader_percents_chain (total : Nat) (cs : List Nat) :
    ∀ already_read, List.Chain' (· ≤ ·) (progress_reader_percents total already_read cs) := by
  induction cs with
  | nil =>
    intro w
    simp [progress_reader_percents]
  | cons c rest ih =>
    intro w
    by_cases h : 0 < total
    · simp only [progress_reader_percents, if_pos h, List.singleton_append]
      rw [List.chain'_cons']
      exact ⟨fun y hy => progress_reader_percents_lb total rest (w + c) y
        (List.mem_of_mem_head? hy), ih (w + c)⟩
    · simp only [progress_reader_percents, if_neg h, List.nil_append]
      exact ih (w + c)

theorem zip_decompress_events_monotone (total_files : Nat) (archive_name : String) :
    List.Chain' (· ≤ ·) ((zip_decompress_events total_files archive_name).map Prod.fst) ∧
    ((zip_decompress_events total_files archive_name).map Prod.fst).getLast? = some 100 := by
  have hev : ((zip_decompress_events total_files archive_name).map Prod.fst)
      = ((List.range total_files).map fun i => pct i total_files) ++ [100] := by
    unfold zip_decompress_events
    rw [List.map_append, List.map_map]
    rfl
  rw [hev]
  constructor
  · have h := bounded_chain_append (range_pct_bounded total_files)
      (bounded_chain_singleton (by norm_num) (le_refl (100 : ℚ)))
      (by norm_num) (le_refl _)
    exact h.1
  · simp [List.getLast?_concat]

theorem find_common_base_loop_spec (rest : List RPath) :
    ∀ base : RPath, (∀ f ∈ rest, (parent_path f).isSome) →
    find_common_base_loop rest base
      = some (common_base_spec_loop base (rest.filterMap parent_path)) := by
  induction rest with
  | nil =>
    intro base _
    rfl
  | cons f rest ih =>
    intro base hall
    have hf : (parent_path f).isSome := hall f (by simp)
    obtain ⟨fp, hfp⟩ := Option.isSome_iff_exists.mp hf
    have hrest : ∀ g ∈ rest, (parent_path g).isSome := fun g hg => hall g (by simp [hg])
    simp only [find_common_base_loop, hfp, List.filterMap_cons, common_base_spec_loop]
    unfold find_common_path
    by_cases hc : common_components base fp = []
    · simp [hc, common_base_spec_loop]
    · simp [hc, common_base_spec_loop, ih _ hrest]

/-! ## Claim theorems -/

/-- Claim C1: for every compression kind whose multi-entry capability is
false and every input list with more than one element,
`compress_files_with_progress` returns the `UnsupportedMultiInput` error
before performing any I/O — the error outcome carries an empty I/O trace,
so no output file is created. -/
theorem compress_rejects_multi_input_before_io
    (files : List (String × FsNode)) (compression_type : CompressionType)
    (hk : supports_multiple_files compression_type = false)
    (hn : 1 < files.length) :
    compress_files_with_progress files compression_type
      = Outcome.error CompressError.unsupportedMultiInput [] := by
  unfold compress_files_with_progress
  rw [if_pos ⟨hk, hn⟩]

/-- Witness for C1: kind `Gzip` with two inputs is rejected with no I/O. -/
theorem compress_rejects_multi_input_before_io_witness :
    supports_multiple_files CompressionType.Gzip = false ∧
    1 < ([("a", FsNode.file 1), ("b", FsNode.file 2)] : List (String × FsNode)).length ∧
    compress_files_with_progress [("a", FsNode.file 1), ("b", FsNode.file 2)]
        CompressionType.Gzip
      = Outcome.error CompressError.unsupportedMultiInput [] :=
  ⟨rfl, by decide, compress_rejects_multi_input_before_io _ _ rfl (by decide)⟩

/-- Claim C2: `fallback_filename_from_compressed` agrees everywhere with
the claim's description of the recovery heuristic (strip a recognized
suffix case-sensitively; keep the base verbatim when it still contains a
dot and append ".txt" otherwise; fall back to the file stem when no
suffix matched or nothing remains), and on the claim's three examples it
yields "notes.txt", "data.txt" and "weird". -/
theorem fallback_filename_spec_conformance :
    (∀ filename : String,
      fallback_filename_from_compressed filename = recover_name_spec filename) ∧
    fallback_filename_from_compressed "notes.txt.gz" = "notes.txt" ∧
    fallback_filename_from_compressed "data.gz" = "data.txt" ∧
    fallback_filename_from_compressed "weird" = "weird" := by
  refine ⟨?_, by decide, by decide, by decide⟩
  intro filename
  unfold fallback_filename_from_compressed recover_name_spec
  split_ifs <;> simp_all

/-- Claim C3 (amended): the sequence of percent values is non-decreasing
with last value exactly 100 for every zip decompression (entry-count
percents, then the unconditional final 100) and for the multi-entry
compress drivers — zip and the two tar drivers — on inputs of positive
total byte size; the byte-counting wrapper sequences that drive the
single-stream compressors and the tar/single-stream decompressors are
always non-decreasing (their terminal value depends on the opaque codec
byte streams). -/
theorem progress_monotone_amended :
    (∀ files : List (String × FsNode), 0 < total_size files →
      (List.Chain' (· ≤ ·) ((zip_compress_events files).map Prod.fst) ∧
        ((zip_compress_events files).map Prod.fst).getLast? = some 100) ∧
      (List.Chain' (· ≤ ·) ((tar_compress_events files).map Prod.fst) ∧
        ((tar_compress_events files).map Prod.fst).getLast? = some 100)) ∧
    (∀ (total_files : Nat) (archive_name : String),
      List.Chain' (· ≤ ·) ((zip_decompress_events total_files archive_name).map Prod.fst) ∧
      ((zip_decompress_events total_files archive_name).map Prod.fst).getLast? = some 100) ∧
    (∀ (total written : Nat) (chunks : List Nat),
      List.Chain' (· ≤ ·) (progress_writer_percents total written chunks)) ∧
    (∀ (total already_read : Nat) (chunks : List Nat),
      List.Chain' (· ≤ ·) (progress_reader_percents total already_read chunks)) := by
  refine ⟨?_, zip_decompress_events_monotone,
    fun total written chunks => progress_writer_percents_chain total chunks written,
    fun total already_read chunks => progress_reader_percents_chain total chunks already_read⟩
  intro files ht
  have hz := zip_loop_bounds files 0 0 (total_size files) files.length ht
  have htr := tar_loop_bounds files 0 0 (total_size files) files.length ht
  have hsum : (0 : Nat) + (files.map fun f => node_size f.2).sum = total_size files := by
    simp [total_size]
  rw [hsum] at hz htr
  rw [pct_self ht] at hz htr
  have hlo : pct 0 (total_size files) ≤ 100 := pct_le_100 (Nat.zero_le _) ht
  have hz' := bounded_chain_append hz
    (bounded_chain_singleton (le_refl (100 : ℚ)) (le_refl (100 : ℚ)))
    hlo (le_refl _)
  have htr' := bounded_chain_append htr
    (bounded_chain_singleton (le_refl (100 : ℚ)) (le_refl (100 : ℚ)))
    hlo (le_refl _)
  refine ⟨⟨?_, ?_⟩, ⟨?_, ?_⟩⟩
  · simpa [zip_compress_events, List.map_append] using hz'.1
  · simp [zip_compress_events, List.map_append, List.getLast?_concat]
  · simpa [tar_compress_events, List.map_append] using htr'.1
  · simp [tar_compress_events, List.map_append, List.getLast?_concat]

/-- Witness for C3: a single one-byte input has positive total size and
its compress event sequences are monotone ending at 100, as is the
decompression event sequence of a two-entry archive. -/
theorem progress_monotone_amended_witness :
    0 < total_size [("a", FsNode.file 1)] ∧
    (((List.Chain' (· ≤ ·) ((zip_compress_events [("a", FsNode.file 1)]).map Prod.fst) ∧
      ((zip_compress_events [("a", FsNode.file 1)]).map Prod.fst).getLast? = some 100) ∧
    (List.Chain' (· ≤ ·) ((tar_compress_events [("a", FsNode.file 1)]).map Prod.fst) ∧
      ((tar_compress_events [("a", FsNode.file 1)]).map Prod.fst).getLast? = some 100)) ∧
    (List.Chain' (· ≤ ·) ((zip_decompress_events 2 "x.zip").map Prod.fst) ∧
      ((zip_decompress_events 2 "x.zip").map Prod.fst).getLast? = some 100) ∧
    List.Chain' (· ≤ ·) (progress_writer_percents 10 0 [4, 6]) ∧
    List.Chain' (· ≤ ·) (progress_reader_percents 10 0 [4, 6])) :=
  ⟨by decide,
   progress_monotone_amended.1 _ (by decide),
   progress_monotone_amended.2.1 2 "x.zip",
   progress_monotone_amended.2.2.1 10 0 [4, 6],
   progress_monotone_amended.2.2.2 10 0 [4, 6]⟩

/-- Counterexample to C3 as stated: two zero-byte files compressed to zip
produce the percent sequence `[0, 100, 50, 100, 100]` (an entry-completion
event reports the literal 100 when the total size is zero, and the next
entry's index-based event drops back to 50), which is not non-decreasing. -/
theorem zip_progress_monotone_cex :
    ¬ List.Chain' (· ≤ ·)
      ((zip_compress_events [("a", FsNode.file 0), ("b", FsNode.file 0)]).map Prod.fst) := by
  have hev : (zip_compress_events [("a", FsNode.file 0), ("b", FsNode.file 0)]).map Prod.fst
      = [0, 100, 50, 100, 100] := by
    norm_num [zip_compress_events, zip_loop, add_zip_events, total_size, node_size]
  rw [hev]
  norm_num [List.chain'_cons]

/-- Claim C4: `decompress_zip_with_progress` writes each entry to
`output_dir.join(entry_name)` with no sanitization, so the stored name
`"../evil.txt"` produces an output path that escapes the output
directory — contradicting the claim that the path never escapes. -/
theorem zip_extract_outpath_escapes :
    decompress_zip_entry_outpath [Comp.normal "out"] "../evil.txt"
      = [Comp.normal "out", Comp.parentdir, Comp.normal "evil.txt"] ∧
    stays_within [Comp.normal "out"]
      (decompress_zip_entry_outpath [Comp.normal "out"] "../evil.txt") = false := by
  decide

/-- Claim C5: `find_common_base_dir` of a single input is that input's
parent; on any non-empty input list whose members all have parents it
equals the claim's fold of componentwise longest shared leads over the
parents (with the short-circuit to the current directory); the claim's
example `/a/b/c.txt`, `/a/b/d/e.txt` yields `/a/b`; and inputs sharing no
components fall back to the current working directory. -/
theorem find_common_base_dir_spec :
    (∀ f : RPath, find_common_base_dir [f] = parent_path f) ∧
    (∀ files : List RPath, files ≠ [] →
      (∀ f ∈ files, (parent_path f).isSome) →
      find_common_base_dir files = common_base_spec (files.filterMap parent_path)) ∧
    find_common_base_dir
        [[Comp.root, Comp.normal "a", Comp.normal "b", Comp.normal "c.txt"],
         [Comp.root, Comp.normal "a", Comp.normal "b", Comp.normal "d", Comp.normal "e.txt"]]
      = some [Comp.root, Comp.normal "a", Comp.normal "b"] ∧
    find_common_base_dir
        [[Comp.normal "x", Comp.normal "a.txt"],
         [Comp.root, Comp.normal "y", Comp.normal "b.txt"]]
      = some cwd_path := by
  refine ⟨?_, ?_, by decide, by decide⟩
  · intro f
    unfold find_common_base_dir
    cases h : parent_path f <;> simp [h, find_common_base_loop]
  · intro files hne hall
    match files with
    | f :: rest =>
      have hf : (parent_path f).isSome := hall f (by simp)
      obtain ⟨fp, hfp⟩ := Option.isSome_iff_exists.mp hf
      simp only [find_common_base_dir, hfp, List.filterMap_cons, common_base_spec]
      exact find_common_base_loop_spec rest fp (fun g hg => hall g (by simp [hg]))

/-- Witness for C5: two absolute inputs with distinct parents satisfy the
hypotheses, and the code result equals the claim-side fold. -/
theorem find_common_base_dir_spec_witness :
    ([[Comp.root, Comp.normal "a", Comp.normal "x.txt"],
      [Comp.root, Comp.normal "b", Comp.normal "y.txt"]] : List RPath) ≠ [] ∧
    find_common_base_dir
        [[Comp.root, Comp.normal "a", Comp.normal "x.txt"],
         [Comp.root, Comp.normal "b", Comp.normal "y.txt"]]
      = common_base_spec
          (([[Comp.root, Comp.normal "a", Comp.normal "x.txt"],
             [Comp.root, Comp.normal "b", Comp.normal "y.txt"]] : List RPath).filterMap
            parent_path) :=
  ⟨by decide, find_common_base_dir_spec.2.1 _ (by decide) (by decide)⟩

/-- Claim C6: the progress wrappers hand the buffer to the inner stream
unchanged and propagate its errors unchanged; on success the counter grows
by the bytes actually transferred and the callback receives
`min (100 * counter / total) 100`, and when the total is zero the
callback is never invoked. -/
theorem progress_wrappers_accounting :
    (∀ (σ : Type) (inner_write : σ → List Nat → Except String (Nat × σ))
        (s : σ) (pw : ProgressWriter) (buf : List Nat) (e : String),
      inner_write s buf = .error e →
      progress_writer_write inner_write s pw buf = .error e) ∧
    (∀ (σ : Type) (inner_write : σ → List Nat → Except String (Nat × σ))
        (s : σ) (pw : ProgressWriter) (buf : List Nat) (bytes : Nat) (s' : σ),
      inner_write s buf = .ok (bytes, s') →
      progress_writer_write inner_write s pw buf =
        .ok (bytes, s', ⟨pw.total_size, pw.bytes_written + bytes⟩,
          if 0 < pw.total_size then
            some (min (((pw.bytes_written + bytes : Nat) : ℚ) / (pw.total_size : ℚ) * 100) 100)
          else none)) ∧
    (∀ (σ : Type) (inner_read : σ → Nat → Except String (Nat × σ))
        (s : σ) (pr : ProgressReader) (buf_len : Nat) (e : String),
      inner_read s buf_len = .error e →
      progress_reader_read inner_read s pr buf_len = .error e) ∧
    (∀ (σ : Type) (inner_read : σ → Nat → Except String (Nat × σ))
        (s : σ) (pr : ProgressReader) (buf_len : Nat) (bytes : Nat) (s' : σ),
      inner_read s buf_len = .ok (bytes, s') →
      progress_reader_read inner_read s pr buf_len =
        .ok (bytes, s', ⟨pr.total_size, pr.bytes_read + bytes⟩,
          if 0 < pr.total_size then
            some (min (((pr.bytes_read + bytes : Nat) : ℚ) / (pr.total_size : ℚ) * 100) 100)
          else none)) := by
  refine ⟨?_, ?_, ?_, ?_⟩
  · intro σ iw s pw buf e h
    unfold progress_writer_write
    rw [h]
  · intro σ iw s pw buf bytes s' h
    unfold progress_writer_write
    rw [h]
  · intro σ ir s pr n e h
    unfold progress_reader_read
    rw [h]
  · intro σ ir s pr n bytes s' h
    unfold progress_reader_read
    rw [h]

/-- Witness for C6: a write of 5 bytes against total 10 reports 50 percent
capped at 100, and a read against total 0 reports nothing. -/
theorem progress_wrappers_accounting_witness :
    progress_writer_write (fun (s : Unit) (buf : List Nat) => Except.ok (buf.length, s))
        () ⟨10, 0⟩ [1, 2, 3, 4, 5]
      = Except.ok (5, (), ⟨10, 5⟩,
          if 0 < (10 : Nat) then
            some (min ((((0 : Nat) + 5 : Nat) : ℚ) / ((10 : Nat) : ℚ) * 100) 100)
          else none) ∧
    progress_reader_read (fun (s : Unit) (n : Nat) => Except.ok (n, s)) () ⟨0, 0⟩ 4
      = Except.ok (4, (), ⟨0, 4⟩,
          if 0 < (0 : Nat) then
            some (min ((((0 : Nat) + 4 : Nat) : ℚ) / ((0 : Nat) : ℚ) * 100) 100)
          else none) :=
  ⟨progress_wrappers_accounting.2.1 Unit _ () ⟨10, 0⟩ [1, 2, 3, 4, 5] 5 () rfl,
   progress_wrappers_accounting.2.2.2 Unit _ () ⟨0, 0⟩ 4 4 () rfl⟩

/-- Claim C7 (amended): only the zip driver stores the entry under its
path relative to the common base directory (forward slashes, file-name
fallback when relativization fails, which never fails the operation); the
tar drivers always store just the input's final file name. -/
theorem entry_name_amended :
    (∀ (file_path base_dir rel : RPath),
        strip_path_base file_path base_dir = some rel →
        zip_entry_name file_path base_dir = slash_text rel) ∧
    (∀ file_path base_dir : RPath,
        strip_path_base file_path base_dir = none →
        zip_entry_name file_path base_dir = file_name_of file_path) ∧
    (∀ file_path : RPath, tar_entry_name file_path = file_name_of file_path) := by
  refine ⟨?_, ?_, fun _ => rfl⟩
  · intro fp bd rel h
    unfold zip_entry_name
    rw [h]
  · intro fp bd h
    unfold zip_entry_name
    rw [h]

/-- Witness for C7: a successful and a failed relativization, both
resolved as the amended claim states. -/
theorem entry_name_amended_witness :
    zip_entry_name [Comp.root, Comp.normal "a", Comp.normal "b.txt"] [Comp.root]
      = slash_text [Comp.normal "a", Comp.normal "b.txt"] ∧
    zip_entry_name [Comp.normal "q.txt"] [Comp.root]
      = file_name_of [Comp.normal "q.txt"] :=
  ⟨entry_name_amended.1 _ _ _ (by decide), entry_name_amended.2.1 _ _ (by decide)⟩

/-- Counterexample to C7 as stated: for the input `/a/b/c.txt` with common
base `/a`, the tar driver stores `"c.txt"`, not the base-relative
`"b/c.txt"` the claim requires of every multi-entry driver. -/
theorem tar_entry_name_not_relative_cex :
    tar_entry_name [Comp.root, Comp.normal "a", Comp.normal "b", Comp.normal "c.txt"]
      = "c.txt" ∧
    entry_name_spec [Comp.root, Comp.normal "a", Comp.normal "b", Comp.normal "c.txt"]
        [Comp.root, Comp.normal "a"]
      = "b/c.txt" ∧
    tar_entry_name [Comp.root, Comp.normal "a", Comp.normal "b", Comp.normal "c.txt"]
      ≠ entry_name_spec [Comp.root, Comp.normal "a", Comp.normal "b", Comp.normal "c.txt"]
          [Comp.root, Comp.normal "a"] := by
  decide

/-- Claim C8 (amended): `is_compressed_file` returns true exactly when the
file name ends with `.tar.gz`/`.tgz`/`.tar.br`, or its extension (the part
after the last dot, which a leading-dot-only name does not have) is one of
`zip`, `gz`, `br`, `gzip`, `bzip2`, `bz2` or `rar`. -/
theorem is_compressed_file_amended (file_name : String) :
    is_compressed_file file_name = true ↔
      ends_with file_name ".tar.gz" = true ∨ ends_with file_name ".tgz" = true
        ∨ ends_with file_name ".tar.br" = true
        ∨ (rust_extension file_name).getD "" ∈
            (["zip", "gz", "br", "gzip", "bzip2", "bz2", "rar"] : List String) := by
  unfold is_compressed_file
  split_ifs with h
  · simp only [Bool.or_eq_true] at h
    constructor
    · intro _
      tauto
    · intro _
      rfl
  · simp only [Bool.or_eq_true, not_or] at h
    simp only [Bool.or_eq_true, beq_iff_eq, List.mem_cons, List.not_mem_nil, or_false]
    tauto

/-- Counterexample to C8 as stated: `"file.rar"` is accepted by
`is_compressed_file` although it ends with none of the claim's recognized
suffixes. -/
theorem is_compressed_file_accepts_rar_cex :
    is_compressed_file "file.rar" = true ∧
    claim_recognized_suffixes.all (fun suf => !(ends_with "file.rar" suf)) = true := by
  decide

/-- Claim C9: `compress_files_with_progress` with an empty input list and
a single-stream kind indexes `files[0]` and panics before any I/O, instead
of returning a typed error as the claim requires. -/
theorem compress_empty_single_stream_panics :
    compress_files_with_progress [] CompressionType.Gz = Outcome.panicked [] := by
  rfl

/-- Claim C10: `from_extension` is insensitive to case (it agrees with
itself on the lowercased suffix, and maps both `".ZIP"` and `".zip"` to
`Zip`), while the decompression dispatch and `is_compressed_file` match
case-sensitively (`"a.ZIP"` is unsupported/not recognized although
`"a.zip"` is). -/
theorem from_extension_case_insensitive :
    (∀ s : String, from_extension s = from_extension (to_lowercase s)) ∧
    from_extension ".ZIP" = some CompressionType.Zip ∧
    from_extension ".zip" = some CompressionType.Zip ∧
    decompress_dispatch "a.ZIP" = none ∧
    decompress_dispatch "a.zip" = some DecompressKind.zip ∧
    is_compressed_file "a.ZIP" = false ∧
    is_compressed_file "a.zip" = true := by
  refine ⟨?_, by decide, by decide, by decide, by decide, by decide, by decide⟩
  intro s
  unfold from_extension
  rw [to_lowercase_idem]

end TauZip
